import Mathlib

/-!
Verification of the table-formatting service in `src/main.py`.

The service parses a word-processing document, applies black single-line
borders to every table, strips the header-repeat flag from every row, and
serializes the result.  We embed the XML-level data the code manipulates
(table property blocks with border descriptor children, row property blocks
with tagged children) and the HTTP handler around it, and prove the spec's
properties about them.
-/

set_option autoImplicit false

namespace Main

/-- A border descriptor element, as built by `_crear_borde`: a named-edge tag
(`top`, `left`, ..., or any tag found in an input document) with the four
attributes the code sets (`w:val`, `w:sz`, `w:space`, `w:color`). -/
structure BorderEl where
  tag : String
  val : String
  sz : Nat
  space : Nat
  color : String
deriving DecidableEq, Repr

/-- A child of a table property block `w:tblPr`: either the `w:tblBorders`
sub-block (holding border descriptors) or some other element. -/
inductive TblPrChild where
  | borders (descs : List BorderEl)
  | other (tag : String)
deriving DecidableEq, Repr

/-- A child of a row property block `w:trPr`, identified by its tag
(the code only inspects tags, looking for `w:tblHeader`). -/
structure TrPrChild where
  tag : String
deriving DecidableEq, Repr

/-- A table row: an optional property block `w:trPr` (absent rows are skipped
by the code) and its cells (opaque content, never touched). -/
structure Row where
  trPr : Option (List TrPrChild)
  cells : List String
deriving DecidableEq, Repr

/-- A table: its property block `w:tblPr` (always present in a well-formed
`w:tbl`) and its rows. -/
structure Table where
  tblPr : List TblPrChild
  rows : List Row
deriving DecidableEq, Repr

/-- A top-level body element of the document: a table or a paragraph
(paragraph text stands for all non-table content). -/
inductive Block where
  | table (t : Table)
  | paragraph (text : String)
deriving DecidableEq, Repr

/-- The parsed document: its body elements in document order. -/
structure Document where
  body : List Block
deriving DecidableEq, Repr

/-- The tables of a document in document order (`doc.tables`). -/
def Document.tables (d : Document) : List Table :=
  d.body.filterMap (fun b => match b with | .table t => some t | .paragraph _ => none)

/-- The qualified tag of the header-repeat flag, `qn('w:tblHeader')`. -/
def qnTblHeader : String := "w:tblHeader"

/-- The six edge tags written by `aplicar_bordes_negros_tabla`, in loop order. -/
def edgeTags : List String := ["top", "left", "bottom", "right", "insideH", "insideV"]

/-- `_crear_borde`: a fresh border descriptor for `tag` with
`w:val="single"`, `w:sz=ancho_octavos_pt`, `w:space="0"`, `w:color=color_hex`. -/
def crearBorde (ancho_octavos_pt : Nat) (color_hex : String) (tag : String) : BorderEl :=
  { tag := tag, val := "single", sz := ancho_octavos_pt, space := 0, color := color_hex }

/-- `tblBorders.find(qn(tag))` followed by `tblBorders.remove(previo)`:
remove the first descriptor carrying `tag`, if any. -/
def removeFirst (tag : String) : List BorderEl → List BorderEl
  | [] => []
  | b :: bs => if b.tag = tag then bs else b :: removeFirst tag bs

/-- One iteration of the border loop: drop the first existing descriptor for
`tag` and append a freshly constructed one. -/
def setBorde (ancho : Nat) (color : String) (descs : List BorderEl) (tag : String) : List BorderEl :=
  removeFirst tag descs ++ [crearBorde ancho color tag]

/-- The whole border loop over the six edge tags. -/
def aplicarSeisBordes (ancho : Nat) (color : String) (descs : List BorderEl) : List BorderEl :=
  edgeTags.foldl (setBorde ancho color) descs

/-- The removal part of the border loop, one `removeFirst` per tag. -/
def removeTags (tags : List String) (bs : List BorderEl) : List BorderEl :=
  tags.foldl (fun l t => removeFirst t l) bs

/-- The fresh descriptors appended by the border loop, one per tag. -/
def freshList (ancho : Nat) (color : String) : List BorderEl :=
  edgeTags.map (crearBorde ancho color)

/-- Whether a `w:tblPr` child is the `w:tblBorders` sub-block. -/
def TblPrChild.isBorders : TblPrChild → Bool
  | .borders _ => true
  | .other _ => false

/-- `tblPr.find(qn('w:tblBorders')) is not None`. -/
def hasBordersChild (pr : List TblPrChild) : Bool :=
  pr.any TblPrChild.isBorders

/-- Mutate the first `w:tblBorders` child in place with `f`
(the code mutates the element `find` returned). -/
def mapFirstBorders (f : List BorderEl → List BorderEl) : List TblPrChild → List TblPrChild
  | [] => []
  | .borders descs :: rest => .borders (f descs) :: rest
  | .other tag :: rest => .other tag :: mapFirstBorders f rest

/-- `aplicar_bordes_negros_tabla`: find the `w:tblBorders` sub-block of the
table's property block, appending an empty one when absent, then run the
border loop on it. -/
def aplicar_bordes_negros_tabla (table : Table) (ancho_octavos_pt : Nat) (color_hex : String) :
    Table :=
  let pr := if hasBordersChild table.tblPr then table.tblPr else table.tblPr ++ [.borders []]
  { table with tblPr := mapFirstBorders (aplicarSeisBordes ancho_octavos_pt color_hex) pr }

/-- The per-row body of `eliminar_repeticion_fila_encabezado`: when the row
has a property block, remove every child tagged `w:tblHeader`; otherwise
leave the row untouched. -/
def quitarTblHeader (r : Row) : Row :=
  match r.trPr with
  | none => r
  | some cs => { r with trPr := some (cs.filter (fun c => c.tag != qnTblHeader)) }

/-- `eliminar_repeticion_fila_encabezado`: strip the header-repeat flag from
every row of the table. -/
def eliminar_repeticion_fila_encabezado (table : Table) : Table :=
  { table with rows := table.rows.map quitarTblHeader }

/-- The loop body of `procesar_docx`: borders first, then header-flag removal,
with the default arguments `ancho_octavos_pt=8`, `color_hex="000000"`. -/
def procesarTabla (t : Table) : Table :=
  eliminar_repeticion_fila_encabezado (aplicar_bordes_negros_tabla t 8 "000000")

/-- `procesar_docx` restricted to the parsed document: process every table,
leave every other body element alone. -/
def procesarBlock : Block → Block
  | .table t => .table (procesarTabla t)
  | .paragraph p => .paragraph p

/-- The document-level transform of `procesar_docx`. -/
def procesarDoc (d : Document) : Document :=
  ⟨d.body.map procesarBlock⟩

/-- An in-memory byte stream (`BytesIO`): its bytes and its read position. -/
structure ByteStream where
  bytes : List Nat
  pos : Nat
deriving DecidableEq, Repr

/-- Modelled from the spec: the external document library (python-docx) used
by `procesar_docx` is not part of src/.  `load` (`Document(stream)`) parses a
byte buffer into a `Document` or fails with a ParseError-equivalent message;
`save` (`doc.save(...)`) serializes a `Document` into bytes. -/
structure DocxLib where
  load : List Nat → Except String Document
  save : Document → List Nat

/-- `procesar_docx`: parse the input stream, process every table, serialize
into a fresh stream and rewind it to position 0.  A parse failure propagates
to the caller. -/
def procesar_docx (lib : DocxLib) (stream_entrada : ByteStream) : Except String ByteStream :=
  match lib.load stream_entrada.bytes with
  | .error e => .error e
  | .ok doc =>
      let salida := lib.save (procesarDoc doc)
      .ok { bytes := salida, pos := 0 }

/-- An uploaded multipart file: its client-supplied filename and its bytes. -/
structure FilePart where
  filename : String
  content : List Nat
deriving DecidableEq, Repr

/-- A `POST /process` request: the optional multipart field `file` and the
raw request body. -/
structure HttpRequest where
  filePart : Option FilePart
  rawBody : List Nat
deriving DecidableEq, Repr

/-- A response body: a JSON object with an `error` field, or a binary
attachment with a suggested download name and a MIME type. -/
inductive HttpBody where
  | jsonError (msg : String)
  | attachment (bytes : List Nat) (downloadName : String) (mimetype : String)
deriving DecidableEq, Repr

/-- An HTTP response: status code and body. -/
structure HttpResponse where
  status : Nat
  body : HttpBody
deriving DecidableEq, Repr

/-- The MIME type passed to `send_file`. -/
def docxMime : String :=
  "application/vnd.openxmlformats-officedocument.wordprocessingml.document"

/-- `filename_in.rsplit('.', 1)[0] if '.' in filename_in else filename_in`:
strip the last extension segment when a dot is present. -/
def stripLastExt (s : String) : String :=
  if s.toList.contains '.' then
    ⟨((s.toList.reverse.dropWhile (fun c => c != '.')).tail).reverse⟩
  else s

/-- The effective input filename: the multipart filename when present and
non-empty (`f.filename or filename_in`), the default `input.docx` otherwise. -/
def filenameIn (req : HttpRequest) : String :=
  match req.filePart with
  | some f => if f.filename = "" then "input.docx" else f.filename
  | none => "input.docx"

/-- The bytes the handler feeds to `procesar_docx`: the uploaded file's
content when the `file` field is present, else the raw body when non-empty;
`none` is the missing-input case. -/
def inputBytes (req : HttpRequest) : Option (List Nat) :=
  match req.filePart with
  | some f => some f.content
  | none => if req.rawBody.isEmpty then none else some req.rawBody

/-- The success/exception tail of the handler: run `procesar_docx` on the
chosen bytes; on exception answer `500` with the message in the `error`
field, on success answer `200` with the attachment named
`<base>_procesado.docx` and the document MIME type. -/
def processDocxRequest (lib : DocxLib) (filename_in : String) (in_bytes : List Nat) :
    HttpResponse :=
  match procesar_docx lib { bytes := in_bytes, pos := 0 } with
  | .error e => { status := 500, body := .jsonError e }
  | .ok salida =>
      let base := stripLastExt filename_in
      { status := 200,
        body := .attachment salida.bytes (base ++ "_procesado.docx") docxMime }

/-- The `POST /process` handler: with no `file` field and an empty raw body
answer `400` with a JSON error; otherwise process the chosen input bytes. -/
def process (lib : DocxLib) (req : HttpRequest) : HttpResponse :=
  match inputBytes req with
  | none => { status := 400, body := .jsonError "No se recibió archivo" }
  | some bs => processDocxRequest lib (filenameIn req) bs

/-! Derived notions used to state the spec's properties. -/

/-- All border descriptors held by a property block, across its
`w:tblBorders` sub-blocks, in document order. -/
def allBorderDescs : List TblPrChild → List BorderEl
  | [] => []
  | .borders descs :: rest => descs ++ allBorderDescs rest
  | .other _ :: rest => allBorderDescs rest

/-- All border descriptors of a table's property block. -/
def Table.borderDescs (t : Table) : List BorderEl :=
  allBorderDescs t.tblPr

/-- Whether a tag is one of the six named edges. -/
def isEdgeTag (s : String) : Bool :=
  decide (s ∈ edgeTags)

/-- The border descriptors of a table that name one of the six edges. -/
def Table.edgeDescs (t : Table) : List BorderEl :=
  t.borderDescs.filter (fun b => isEdgeTag b.tag)

/-- The six freshly constructed descriptors with the default arguments:
style single, width 8 eighths of a point, spacing 0, color 000000. -/
def freshSeis : List BorderEl :=
  edgeTags.map (crearBorde 8 "000000")

/-- Whether a row carries the header-repeat flag. -/
def rowHasFlag (r : Row) : Bool :=
  match r.trPr with
  | none => false
  | some cs => cs.any (fun c => c.tag == qnTblHeader)

/-- The per-row header-repeat flags of a table, in row order. -/
def flagsProfile (t : Table) : List Bool :=
  t.rows.map rowHasFlag

/-- Extensional equality of two descriptor collections, as sets. -/
def sameDescSet (l1 l2 : List BorderEl) : Bool :=
  l1.all (fun b => l2.any (fun c => b == c)) && l2.all (fun b => l1.any (fun c => b == c))

/-- Semantic equality of two documents in the spec's sense: same number of
tables, and table by table the same set of border descriptors and the same
per-row header-repeat flags. -/
def bordersFlagsEq (d1 d2 : Document) : Bool :=
  d1.tables.length == d2.tables.length &&
  (d1.tables.zip d2.tables).all
    (fun p => sameDescSet p.1.borderDescs p.2.borderDescs &&
              flagsProfile p.1 == flagsProfile p.2)

/-- How many descriptors of a block carry `tag`. -/
def countTag (tag : String) (bs : List BorderEl) : Nat :=
  (bs.filter (fun b => b.tag == tag)).length

/-- A borders block is clean when no edge is described more than once
(every block of a schema-valid document is). -/
def cleanBlock (bs : List BorderEl) : Bool :=
  edgeTags.all (fun e => countTag e bs ≤ 1)

/-- The first `w:tblBorders` sub-block of a property block, if any. -/
def firstBordersBlock : List TblPrChild → Option (List BorderEl)
  | [] => none
  | .borders bs :: _ => some bs
  | .other _ :: rest => firstBordersBlock rest

/-- The borders block the code will operate on, when present, is clean. -/
def firstBordersClean (pr : List TblPrChild) : Bool :=
  match firstBordersBlock pr with
  | none => true
  | some bs => cleanBlock bs

/-- A property block is clean when it has at most one `w:tblBorders`
sub-block and that block is clean (schema-valid documents are). -/
def cleanTblPr (pr : List TblPrChild) : Bool :=
  ((pr.filter TblPrChild.isBorders).length ≤ 1) &&
  pr.all (fun c => match c with | .borders bs => cleanBlock bs | .other _ => true)

/-- Erase from a property block exactly what border normalization may touch:
its `w:tblBorders` sub-blocks. -/
def scrubTblPr (pr : List TblPrChild) : List TblPrChild :=
  pr.filter (fun c => !c.isBorders)

/-- Erase from a row exactly what header-repeat suppression may touch:
`w:tblHeader` children of its property block. -/
def scrubRow (r : Row) : Row :=
  { r with trPr := r.trPr.map (fun cs => cs.filter (fun c => c.tag != qnTblHeader)) }

/-- Erase from a table everything the transform may touch. -/
def scrubTable (t : Table) : Table :=
  { tblPr := scrubTblPr t.tblPr, rows := t.rows.map scrubRow }

/-- Erase from a body element everything the transform may touch. -/
def scrubBlock : Block → Block
  | .table t => .table (scrubTable t)
  | .paragraph p => .paragraph p

/-! Concrete documents used as witnesses and counterexamples. -/

/-- A row flagged twice as repeating header, with one unrelated property. -/
def rowFlagged : Row :=
  ⟨some [⟨"w:tblHeader"⟩, ⟨"w:tblHeader"⟩, ⟨"w:cantSplit"⟩], ["c1"]⟩

/-- A row with no property block at all. -/
def rowBare : Row :=
  ⟨none, ["c2"]⟩

/-- A red top border authored in the input. -/
def redTop : BorderEl :=
  ⟨"top", "single", 4, 0, "FF0000"⟩

/-- A schema-valid table: one borders block with one descriptor per edge. -/
def tExample : Table :=
  ⟨[.other "w:tblW", .borders [redTop]], [rowFlagged, rowBare]⟩

/-- A schema-valid document with one paragraph and one table. -/
def dExample : Document :=
  ⟨[.paragraph "hola", .table tExample]⟩

/-- A malformed table whose borders block describes the top edge twice. -/
def tBad : Table :=
  ⟨[.borders [redTop, redTop]], [rowBare]⟩

/-- A document holding the malformed table. -/
def dBad : Document :=
  ⟨[.table tBad]⟩

/-! Extra fixtures for the handler claims. -/

/-- A document with no tables. -/
def dNoTables : Document := ⟨[.paragraph "solo texto"]⟩

/-- A library stub whose parse always succeeds with `dNoTables`. -/
def libEx : DocxLib := ⟨fun _ => Except.ok dNoTables, fun d0 => [d0.body.length]⟩

/-- A library stub whose parse always fails, as on malformed input. -/
def libErr : DocxLib := ⟨fun _ => Except.error "File is not a zip file", fun _ => []⟩

/-- A library stub whose parse always succeeds with `dExample`. -/
def libOk : DocxLib := ⟨fun _ => Except.ok dExample, fun d0 => [d0.body.length]⟩

/-- A raw-body request with no `file` field. -/
def reqRaw : HttpRequest := ⟨none, [1, 2, 3]⟩

/-- A request with no `file` field and an empty raw body. -/
def reqEmpty : HttpRequest := ⟨none, []⟩

/-- A multipart request with a named, non-empty file. -/
def reqFile : HttpRequest := ⟨some ⟨"informe.docx", [9]⟩, []⟩

/-- A multipart request whose uploaded file holds zero bytes. -/
def reqEmptyFile : HttpRequest := ⟨some ⟨"vacio.docx", []⟩, []⟩

/-- A multipart request whose uploaded file has an empty filename. -/
def reqNoName : HttpRequest := ⟨some ⟨"", [3]⟩, []⟩


/-! Lemmas about the border loop. -/

/-- Removing a tag nobody carries is a no-op. -/
theorem removeFirst_of_forall_ne (tag : String) (ys : List BorderEl)
    (h : ∀ y ∈ ys, y.tag ≠ tag) : removeFirst tag ys = ys := by
  induction ys with
  | nil => rfl
  | cons b bs ih =>
      have hb : b.tag ≠ tag := h b (List.mem_cons_self b bs)
      simp only [removeFirst, if_neg hb]
      exact congrArg (b :: ·) (ih fun y hy => h y (List.mem_cons_of_mem b hy))

/-- `removeFirst` ignores a suffix free of the tag. -/
theorem removeFirst_append_right (tag : String) (xs ys : List BorderEl)
    (h : ∀ y ∈ ys, y.tag ≠ tag) :
    removeFirst tag (xs ++ ys) = removeFirst tag xs ++ ys := by
  induction xs with
  | nil => simpa using removeFirst_of_forall_ne tag ys h
  | cons b bs ih =>
      by_cases hb : b.tag = tag
      · simp [removeFirst, hb]
      · simp only [List.cons_append, removeFirst, if_neg hb]
        exact congrArg (b :: ·) ih

/-- `removeFirst` passes over a prefix free of the tag. -/
theorem removeFirst_append_left (tag : String) (xs ys : List BorderEl)
    (h : ∀ x ∈ xs, x.tag ≠ tag) :
    removeFirst tag (xs ++ ys) = xs ++ removeFirst tag ys := by
  induction xs with
  | nil => simp
  | cons b bs ih =>
      have hb : b.tag ≠ tag := h b (List.mem_cons_self b bs)
      simp only [List.cons_append, removeFirst, if_neg hb]
      exact congrArg (b :: ·) (ih fun x hx => h x (List.mem_cons_of_mem b hx))

theorem removeTags_nil (bs : List BorderEl) : removeTags [] bs = bs := rfl

theorem removeTags_cons (t : String) (ts : List String) (bs : List BorderEl) :
    removeTags (t :: ts) bs = removeTags ts (removeFirst t bs) := rfl

/-- `removeTags` ignores a suffix carrying none of the tags. -/
theorem removeTags_append_right (tags : List String) (xs ys : List BorderEl)
    (h : ∀ y ∈ ys, y.tag ∉ tags) :
    removeTags tags (xs ++ ys) = removeTags tags xs ++ ys := by
  induction tags generalizing xs with
  | nil => simp [removeTags_nil]
  | cons t ts ih =>
      rw [removeTags_cons, removeTags_cons,
        removeFirst_append_right t xs ys
          (fun y hy hyt => h y hy (hyt ▸ List.mem_cons_self t ts))]
      exact ih (removeFirst t xs) fun y hy hyt => h y hy (List.mem_cons_of_mem t hyt)

/-- `removeTags` passes over a prefix carrying none of the tags. -/
theorem removeTags_append_left (tags : List String) (xs ys : List BorderEl)
    (h : ∀ x ∈ xs, x.tag ∉ tags) :
    removeTags tags (xs ++ ys) = xs ++ removeTags tags ys := by
  induction tags generalizing ys with
  | nil => simp [removeTags_nil]
  | cons t ts ih =>
      rw [removeTags_cons,
        removeFirst_append_left t xs ys
          (fun x hx hxt => h x hx (hxt ▸ List.mem_cons_self t ts)),
        removeTags_cons]
      exact ih (removeFirst t ys) fun x hx hxt => h x hx (List.mem_cons_of_mem t hxt)

/-- The border loop splits into its removals followed by the fresh
descriptors, for any duplicate-free tag list. -/
theorem foldl_setBorde_eq (ancho : Nat) (color : String) (tags : List String)
    (bs : List BorderEl) (h : tags.Nodup) :
    tags.foldl (setBorde ancho color) bs =
      removeTags tags bs ++ tags.map (crearBorde ancho color) := by
  induction tags generalizing bs with
  | nil => simp [removeTags_nil]
  | cons t ts ih =>
      have hts : ts.Nodup := (List.nodup_cons.mp h).2
      have htmem : t ∉ ts := (List.nodup_cons.mp h).1
      have hstep : removeTags ts (removeFirst t bs ++ [crearBorde ancho color t]) =
          removeTags ts (removeFirst t bs) ++ [crearBorde ancho color t] := by
        refine removeTags_append_right ts _ _ ?_
        intro y hy
        rcases List.mem_singleton.mp hy with rfl
        simpa [crearBorde] using htmem
      calc (t :: ts).foldl (setBorde ancho color) bs
          = ts.foldl (setBorde ancho color) (removeFirst t bs ++ [crearBorde ancho color t]) := rfl
        _ = removeTags ts (removeFirst t bs ++ [crearBorde ancho color t]) ++
              ts.map (crearBorde ancho color) := ih _ hts
        _ = (removeTags ts (removeFirst t bs) ++ [crearBorde ancho color t]) ++
              ts.map (crearBorde ancho color) := by rw [hstep]
        _ = removeTags (t :: ts) bs ++ (t :: ts).map (crearBorde ancho color) := by
              simp [removeTags_cons, List.append_assoc]

/-- The border loop over the six edges: remove the first descriptor of each
edge, then append the six fresh ones. -/
theorem aplicarSeisBordes_eq (ancho : Nat) (color : String) (bs : List BorderEl) :
    aplicarSeisBordes ancho color bs = removeTags edgeTags bs ++ freshList ancho color :=
  foldl_setBorde_eq ancho color edgeTags bs (by decide)

theorem countTag_cons (tag : String) (b : BorderEl) (bs : List BorderEl) :
    countTag tag (b :: bs) =
      if b.tag = tag then countTag tag bs + 1 else countTag tag bs := by
  by_cases hb : b.tag = tag <;> simp [countTag, List.filter_cons, hb]

/-- Removing any first occurrence never increases a tag's count. -/
theorem countTag_removeFirst_le (tag t' : String) (bs : List BorderEl) :
    countTag tag (removeFirst t' bs) ≤ countTag tag bs := by
  induction bs with
  | nil => exact Nat.le_refl _
  | cons b rest ih =>
      by_cases hb : b.tag = t'
      · simp only [removeFirst, if_pos hb, countTag_cons]
        by_cases hbt : b.tag = tag
        · simp [hbt, Nat.le_succ_of_le (Nat.le_refl _)]
        · simp [hbt]
      · simp only [removeFirst, if_neg hb, countTag_cons]
        by_cases hbt : b.tag = tag
        · simpa [hbt] using Nat.succ_le_succ ih
        · simpa [hbt] using ih

/-- Removing the first occurrence of a tag that appears at most once leaves
none of it. -/
theorem countTag_removeFirst_self (tag : String) (bs : List BorderEl)
    (h : countTag tag bs ≤ 1) : countTag tag (removeFirst tag bs) = 0 := by
  induction bs with
  | nil => rfl
  | cons b rest ih =>
      by_cases hb : b.tag = tag
      · have hcount : countTag tag (b :: rest) = countTag tag rest + 1 := by
          simp [countTag_cons, hb]
        rw [hcount] at h
        have : countTag tag rest = 0 := Nat.le_zero.mp (Nat.lt_succ_iff.mp h)
        simpa [removeFirst, hb] using this
      · have hcount : countTag tag (b :: rest) = countTag tag rest := by
          simp [countTag_cons, hb]
        rw [hcount] at h
        simp [removeFirst, hb, countTag_cons, ih h]

/-- `removeTags` never increases a tag's count. -/
theorem countTag_removeTags_le (tag : String) (tags : List String) (bs : List BorderEl) :
    countTag tag (removeTags tags bs) ≤ countTag tag bs := by
  induction tags generalizing bs with
  | nil => exact Nat.le_refl _
  | cons t ts ih =>
      rw [removeTags_cons]
      exact Nat.le_trans (ih _) (countTag_removeFirst_le tag t bs)

/-- After the removal pass, a tag of the list that appeared at most once is
gone. -/
theorem countTag_removeTags_zero (tag : String) (tags : List String) (bs : List BorderEl)
    (hmem : tag ∈ tags) (h : countTag tag bs ≤ 1) :
    countTag tag (removeTags tags bs) = 0 := by
  induction tags generalizing bs with
  | nil => cases hmem
  | cons t ts ih =>
      rw [removeTags_cons]
      rcases List.mem_cons.mp hmem with rfl | hts
      · exact Nat.le_zero.mp <|
          Nat.le_trans (countTag_removeTags_le tag ts _)
            (Nat.le_of_eq (countTag_removeFirst_self tag bs h))
      · exact ih _ hts (Nat.le_trans (countTag_removeFirst_le tag t bs) h)

/-- A member's tag always counts positively. -/
theorem countTag_pos_of_mem (x : BorderEl) (bs : List BorderEl) (hx : x ∈ bs) :
    0 < countTag x.tag bs := by
  have : x ∈ bs.filter (fun b => b.tag == x.tag) :=
    List.mem_filter.mpr ⟨hx, by simp⟩
  simpa [countTag] using List.length_pos.mpr (List.ne_nil_of_mem this)

/-- After the removal pass over a clean block, no edge descriptor remains. -/
theorem removeTags_no_edge (bs : List BorderEl) (h : cleanBlock bs = true) :
    ∀ x ∈ removeTags edgeTags bs, isEdgeTag x.tag = false := by
  intro x hx
  rcases hmem : isEdgeTag x.tag with _ | _
  · rfl
  · exfalso
    have htag : x.tag ∈ edgeTags := of_decide_eq_true hmem
    have hcount : countTag x.tag bs ≤ 1 := by
      have := (List.all_eq_true.mp h) x.tag htag
      exact of_decide_eq_true this
    have hzero : countTag x.tag (removeTags edgeTags bs) = 0 :=
      countTag_removeTags_zero x.tag edgeTags bs htag hcount
    have hpos := countTag_pos_of_mem x _ hx
    omega

/-- The fresh descriptors are all edge descriptors. -/
theorem freshList_filter (ancho : Nat) (color : String) :
    (freshList ancho color).filter (fun b => isEdgeTag b.tag) = freshList ancho color := rfl

/-- The border loop on a clean block leaves exactly the six fresh edge
descriptors (edge-wise). -/
theorem filter_edge_aplicarSeisBordes (ancho : Nat) (color : String) (bs : List BorderEl)
    (h : cleanBlock bs = true) :
    (aplicarSeisBordes ancho color bs).filter (fun b => isEdgeTag b.tag) =
      freshList ancho color := by
  rw [aplicarSeisBordes_eq, List.filter_append, freshList_filter]
  have hnil : (removeTags edgeTags bs).filter (fun b => isEdgeTag b.tag) = [] :=
    List.filter_eq_nil_iff.mpr fun x hx => by
      simp [removeTags_no_edge bs h x hx]
  rw [hnil, List.nil_append]

/-- The removal pass erases the whole fresh list. -/
theorem removeTags_freshList (ancho : Nat) (color : String) :
    removeTags edgeTags (freshList ancho color) = [] := rfl

/-- The border loop is idempotent on clean blocks. -/
theorem aplicarSeisBordes_idem (ancho : Nat) (color : String) (bs : List BorderEl)
    (h : cleanBlock bs = true) :
    aplicarSeisBordes ancho color (aplicarSeisBordes ancho color bs) =
      aplicarSeisBordes ancho color bs := by
  rw [aplicarSeisBordes_eq, aplicarSeisBordes_eq]
  have hleft : removeTags edgeTags (removeTags edgeTags bs ++ freshList ancho color) =
      removeTags edgeTags bs ++ removeTags edgeTags (freshList ancho color) :=
    removeTags_append_left edgeTags _ _ fun x hx hmem => by
      have hfalse := removeTags_no_edge bs h x hx
      rw [isEdgeTag] at hfalse
      exact (of_decide_eq_false hfalse) hmem
  rw [hleft, removeTags_freshList, List.append_nil]

/-! Lemmas about the property block and the table transform. -/

theorem hasBordersChild_mapFirstBorders (f : List BorderEl → List BorderEl)
    (pr : List TblPrChild) :
    hasBordersChild (mapFirstBorders f pr) = hasBordersChild pr := by
  induction pr with
  | nil => rfl
  | cons c rest ih =>
      cases c with
      | borders bs => simp [mapFirstBorders, hasBordersChild, TblPrChild.isBorders]
      | other tag => simpa [mapFirstBorders, hasBordersChild, TblPrChild.isBorders] using ih

theorem hasBordersChild_append_borders (pr : List TblPrChild) (bs : List BorderEl) :
    hasBordersChild (pr ++ [.borders bs]) = true := by
  simp [hasBordersChild, List.any_append, TblPrChild.isBorders]

/-- With no borders child in front, the mutation lands on an appended block. -/
theorem mapFirstBorders_append_of_not_has (f : List BorderEl → List BorderEl)
    (pr : List TblPrChild) (bs : List BorderEl) (h : hasBordersChild pr = false) :
    mapFirstBorders f (pr ++ [.borders bs]) = pr ++ [.borders (f bs)] := by
  induction pr with
  | nil => rfl
  | cons c rest ih =>
      cases c with
      | borders bs' => simp [hasBordersChild, TblPrChild.isBorders] at h
      | other tag =>
          have hrest : hasBordersChild rest = false := by
            simpa [hasBordersChild, TblPrChild.isBorders] using h
          simp [mapFirstBorders, ih hrest]

/-- Mutating the first borders block twice is mutating it with the composite. -/
theorem mapFirstBorders_mapFirstBorders (f : List BorderEl → List BorderEl)
    (pr : List TblPrChild)
    (h : ∀ bs, firstBordersBlock pr = some bs → f (f bs) = f bs) :
    mapFirstBorders f (mapFirstBorders f pr) = mapFirstBorders f pr := by
  induction pr with
  | nil => rfl
  | cons c rest ih =>
      cases c with
      | borders bs =>
          simp [mapFirstBorders, h bs (by simp [firstBordersBlock])]
      | other tag =>
          simp only [mapFirstBorders]
          exact congrArg (TblPrChild.other tag :: ·)
            (ih fun bs hbs => h bs (by simpa [firstBordersBlock] using hbs))

theorem firstBordersBlock_append_of_not_has (pr : List TblPrChild) (bs : List BorderEl)
    (h : hasBordersChild pr = false) :
    firstBordersBlock (pr ++ [.borders bs]) = some bs := by
  induction pr with
  | nil => rfl
  | cons c rest ih =>
      cases c with
      | borders bs' => simp [hasBordersChild, TblPrChild.isBorders] at h
      | other tag =>
          have hrest : hasBordersChild rest = false := by
            simpa [hasBordersChild, TblPrChild.isBorders] using h
          simpa [firstBordersBlock] using ih hrest

/-- The rows of a table survive border application untouched. -/
theorem rows_aplicar_bordes (t : Table) (a : Nat) (c : String) :
    (aplicar_bordes_negros_tabla t a c).rows = t.rows := rfl

/-- The property block survives header-flag removal untouched. -/
theorem tblPr_eliminar (t : Table) :
    (eliminar_repeticion_fila_encabezado t).tblPr = t.tblPr := rfl

/-- The processed table componentwise. -/
theorem procesarTabla_eq (t : Table) :
    procesarTabla t =
      ⟨mapFirstBorders (aplicarSeisBordes 8 "000000")
          (if hasBordersChild t.tblPr then t.tblPr else t.tblPr ++ [.borders []]),
        t.rows.map quitarTblHeader⟩ := rfl

/-- The tables of the processed document are the processed tables. -/
theorem tables_procesarDoc (d : Document) :
    (procesarDoc d).tables = d.tables.map procesarTabla := by
  unfold procesarDoc Document.tables
  induction d.body with
  | nil => rfl
  | cons b rest ih =>
      cases b with
      | table t => simpa [procesarBlock, List.filterMap_cons] using ih
      | paragraph p => simpa [procesarBlock, List.filterMap_cons] using ih

/-- A table block of the body is one of the document's tables. -/
theorem mem_tables_of_mem_body (d : Document) (t : Table) (h : Block.table t ∈ d.body) :
    t ∈ d.tables :=
  List.mem_filterMap.mpr ⟨Block.table t, h, rfl⟩

/-- On a clean property block, processing leaves exactly the six fresh edge
descriptors (one per edge, style single, width 8, spacing 0, color 000000). -/
theorem edgeDescs_tblPr_apply (pr : List TblPrChild) (h : cleanTblPr pr = true) :
    (allBorderDescs (mapFirstBorders (aplicarSeisBordes 8 "000000")
        (if hasBordersChild pr then pr else pr ++ [.borders []]))).filter
      (fun b => isEdgeTag b.tag) = freshSeis := by
  induction pr with
  | nil =>
      simp only [hasBordersChild, List.any_nil, List.nil_append, Bool.false_eq_true, if_false]
      rfl
  | cons c rest ih =>
      cases c with
      | borders bs =>
          have hone : (rest.filter TblPrChild.isBorders).length = 0 := by
            have hpair := h
            rw [cleanTblPr, Bool.and_eq_true] at hpair
            have := hpair.1
            simp only [List.filter_cons, TblPrChild.isBorders, if_pos] at this
            have hlen := of_decide_eq_true this
            simpa [TblPrChild.isBorders] using Nat.lt_succ_iff.mp hlen
          have hrestNil : allBorderDescs rest = [] := by
            clear ih h
            induction rest with
            | nil => rfl
            | cons c' rest' ih' =>
                cases c' with
                | borders bs' => simp [List.filter_cons, TblPrChild.isBorders] at hone
                | other tag' =>
                    simp only [List.filter_cons, TblPrChild.isBorders] at hone
                    simpa [allBorderDescs] using ih' (by simpa using hone)
          have hbs : cleanBlock bs = true := by
            have hpair := h
            rw [cleanTblPr, Bool.and_eq_true] at hpair
            have := hpair.2
            have hb := (List.all_eq_true.mp this) (TblPrChild.borders bs)
              (List.mem_cons_self _ _)
            simpa using hb
          simp only [hasBordersChild, List.any_cons, TblPrChild.isBorders, Bool.true_or,
            if_pos, mapFirstBorders, allBorderDescs, hrestNil, List.append_nil]
          exact filter_edge_aplicarSeisBordes 8 "000000" bs hbs
      | other tag =>
          have hrest : cleanTblPr rest = true := by
            have hpair := h
            rw [cleanTblPr, Bool.and_eq_true] at hpair
            obtain ⟨h1, h2⟩ := hpair
            rw [cleanTblPr, Bool.and_eq_true]
            refine ⟨?_, ?_⟩
            · simpa [List.filter_cons, TblPrChild.isBorders] using h1
            · exact List.all_eq_true.mpr fun c' hc' =>
                (List.all_eq_true.mp h2) c' (List.mem_cons_of_mem _ hc')
          have ihr := ih hrest
          by_cases hhas : hasBordersChild rest = true
          · have hhas' : hasBordersChild (TblPrChild.other tag :: rest) = true := by
              simpa [hasBordersChild, TblPrChild.isBorders] using hhas
            simpa [hhas, hhas', mapFirstBorders, allBorderDescs] using ihr
          · have hhasF : hasBordersChild rest = false := by
              simpa using hhas
            have hhas' : hasBordersChild (TblPrChild.other tag :: rest) = false := by
              simpa [hasBordersChild, TblPrChild.isBorders] using hhasF
            simpa [hhasF, hhas', mapFirstBorders, allBorderDescs, List.cons_append]
              using ihr

/-- A processed clean table carries exactly the six fresh edge descriptors. -/
theorem edgeDescs_procesarTabla (t : Table) (h : cleanTblPr t.tblPr = true) :
    (procesarTabla t).edgeDescs = freshSeis :=
  edgeDescs_tblPr_apply t.tblPr h

/-! Lemmas about rows and header flags. -/

/-- A row that went through flag removal carries no header-repeat flag. -/
theorem rowHasFlag_quitarTblHeader (r : Row) : rowHasFlag (quitarTblHeader r) = false := by
  cases r with
  | mk trPr cells =>
      cases trPr with
      | none => rfl
      | some cs =>
          simp only [quitarTblHeader, rowHasFlag]
          rw [List.any_eq_false]
          intro c hc
          have := (List.mem_filter.mp hc).2
          simpa using this

/-- Flag removal is idempotent on a row. -/
theorem quitarTblHeader_idem (r : Row) :
    quitarTblHeader (quitarTblHeader r) = quitarTblHeader r := by
  cases r with
  | mk trPr cells =>
      cases trPr with
      | none => rfl
      | some cs => simp [quitarTblHeader, List.filter_filter]

/-- A row without a property block passes through untouched. -/
theorem quitarTblHeader_of_no_trPr (r : Row) (h : r.trPr = none) :
    quitarTblHeader r = r := by
  cases r with
  | mk trPr cells => cases h; rfl

/-! Idempotence of the table transform on clean inputs. -/

/-- The border loop with the default arguments fixes its own output from an
empty block. -/
theorem aplicarSeisBordes_empty_idem :
    aplicarSeisBordes 8 "000000" (aplicarSeisBordes 8 "000000" []) =
      aplicarSeisBordes 8 "000000" [] := rfl

/-- The table transform is idempotent when the borders block it operates on
is clean. -/
theorem procesarTabla_idem (t : Table) (h : firstBordersClean t.tblPr = true) :
    procesarTabla (procesarTabla t) = procesarTabla t := by
  rw [procesarTabla_eq t, procesarTabla_eq]
  have hrows : (t.rows.map quitarTblHeader).map quitarTblHeader =
      t.rows.map quitarTblHeader := by
    rw [List.map_map]
    exact List.map_congr_left fun r _ => quitarTblHeader_idem r
  refine congrArg₂ Table.mk ?_ hrows
  by_cases hhas : hasBordersChild t.tblPr = true
  · have h1 : hasBordersChild (mapFirstBorders (aplicarSeisBordes 8 "000000") t.tblPr) =
        true := by rw [hasBordersChild_mapFirstBorders]; exact hhas
    simp only [hhas, if_pos, h1]
    refine mapFirstBorders_mapFirstBorders _ _ fun bs hbs => ?_
    have hclean : cleanBlock bs = true := by
      rw [firstBordersClean, hbs] at h
      exact h
    exact aplicarSeisBordes_idem 8 "000000" bs hclean
  · have hhasF : hasBordersChild t.tblPr = false := by simpa using hhas
    rw [if_neg hhas,
      mapFirstBorders_append_of_not_has _ t.tblPr [] hhasF]
    have h1 : hasBordersChild (t.tblPr ++
        [.borders (aplicarSeisBordes 8 "000000" [])]) = true :=
      hasBordersChild_append_borders _ _
    rw [if_pos h1, mapFirstBorders_append_of_not_has _ t.tblPr _ hhasF,
      aplicarSeisBordes_empty_idem]

/-- The block transform is idempotent when table blocks are clean. -/
theorem procesarBlock_idem (b : Block)
    (h : ∀ t, b = Block.table t → firstBordersClean t.tblPr = true) :
    procesarBlock (procesarBlock b) = procesarBlock b := by
  cases b with
  | table t => exact congrArg Block.table (procesarTabla_idem t (h t rfl))
  | paragraph p => rfl

/-! The zero-table case. -/

/-- A body without table blocks passes through the transform untouched. -/
theorem map_procesarBlock_of_no_tables (l : List Block)
    (h : l.filterMap (fun b => match b with
          | Block.table t => some t | Block.paragraph _ => none) = []) :
    l.map procesarBlock = l := by
  induction l with
  | nil => rfl
  | cons b rest ih =>
      cases b with
      | table t => simp [List.filterMap_cons] at h
      | paragraph p =>
          simp only [List.filterMap_cons] at h
          simp [procesarBlock, ih h]

/-- A document with no tables is returned structurally unchanged. -/
theorem procesarDoc_of_no_tables (d : Document) (h : d.tables = []) :
    procesarDoc d = d := by
  cases d with
  | mk body =>
      exact congrArg Document.mk (map_procesarBlock_of_no_tables body h)

/-! Frame lemmas: everything but borders blocks and header flags survives. -/

theorem scrubTblPr_mapFirstBorders (f : List BorderEl → List BorderEl)
    (pr : List TblPrChild) :
    scrubTblPr (mapFirstBorders f pr) = scrubTblPr pr := by
  induction pr with
  | nil => rfl
  | cons c rest ih =>
      cases c with
      | borders bs => simp [mapFirstBorders, scrubTblPr, List.filter_cons, TblPrChild.isBorders]
      | other tag =>
          simpa [mapFirstBorders, scrubTblPr, List.filter_cons, TblPrChild.isBorders] using ih

theorem scrubTblPr_append_borders (pr : List TblPrChild) (bs : List BorderEl) :
    scrubTblPr (pr ++ [.borders bs]) = scrubTblPr pr := by
  simp [scrubTblPr, List.filter_append, List.filter_cons, TblPrChild.isBorders]

theorem scrubRow_quitarTblHeader (r : Row) : scrubRow (quitarTblHeader r) = scrubRow r := by
  cases r with
  | mk trPr cells =>
      cases trPr with
      | none => rfl
      | some cs => simp [quitarTblHeader, scrubRow, List.filter_filter]

/-- Scrubbing absorbs the whole transform: the transform touches nothing the
scrub keeps. -/
theorem scrubBlock_procesarBlock (b : Block) :
    scrubBlock (procesarBlock b) = scrubBlock b := by
  cases b with
  | paragraph p => rfl
  | table t =>
      refine congrArg (fun x => Block.table x) ?_
      rw [procesarTabla_eq]
      refine congrArg₂ Table.mk ?_ ?_
      · by_cases hhas : hasBordersChild t.tblPr = true
        · rw [if_pos hhas, scrubTblPr_mapFirstBorders]
        · rw [if_neg hhas, scrubTblPr_mapFirstBorders, scrubTblPr_append_borders]
      · rw [List.map_map]
        exact List.map_congr_left fun r _ => scrubRow_quitarTblHeader r

/-! Semantic equality is reflexive. -/

theorem sameDescSet_refl (l : List BorderEl) : sameDescSet l l = true := by
  have : l.all (fun b => l.any (fun c => b == c)) = true :=
    List.all_eq_true.mpr fun b hb =>
      List.any_eq_true.mpr ⟨b, hb, by simp⟩
  simp [sameDescSet, this]

theorem zip_self_all {α : Type} (f : α × α → Bool) (l : List α)
    (hf : ∀ x ∈ l, f (x, x) = true) : (l.zip l).all f = true := by
  induction l with
  | nil => rfl
  | cons x rest ih =>
      simp only [List.zip_cons_cons, List.all_cons, hf x (List.mem_cons_self x rest),
        Bool.true_and]
      exact ih fun y hy => hf y (List.mem_cons_of_mem x hy)

theorem bordersFlagsEq_refl (d : Document) : bordersFlagsEq d d = true := by
  rw [bordersFlagsEq, Bool.and_eq_true]
  refine ⟨by simp, zip_self_all _ _ fun t _ => ?_⟩
  rw [Bool.and_eq_true]
  exact ⟨sameDescSet_refl _, by simp⟩

/-! Lemmas about the request handler. -/

/-- Every successful response is the `200` attachment with the derived
download name and the document MIME type. -/
theorem process_attachment_shape (lib : DocxLib) (req : HttpRequest)
    (st : Nat) (b : List Nat) (n mt : String)
    (h : process lib req = ⟨st, .attachment b n mt⟩) :
    st = 200 ∧ n = stripLastExt (filenameIn req) ++ "_procesado.docx" ∧ mt = docxMime := by
  rcases hib : inputBytes req with _ | bs
  · simp only [process, hib] at h
    cases h
  · simp only [process, hib, processDocxRequest] at h
    rcases hp : procesar_docx lib { bytes := bs, pos := 0 } with e | salida
    · simp only [hp] at h
      cases h
    · simp only [hp, HttpResponse.mk.injEq, HttpBody.attachment.injEq] at h
      obtain ⟨hst, hby, hn, hmt⟩ := h
      exact ⟨hst.symm, hn.symm, hmt.symm⟩

/-- A request carrying a `file` field never takes the `400` branch. -/
theorem process_filePart_not_400 (lib : DocxLib) (req : HttpRequest) (f : FilePart)
    (hf : req.filePart = some f) :
    process lib req = processDocxRequest lib (filenameIn req) f.content := by
  rw [process, inputBytes, hf]

/-! The claims. -/

/-- C1, as stated, is false: on a table whose borders block lists the `top`
edge twice, processing leaves seven edge descriptors (the second stale `top`
survives), not exactly six fresh ones. -/
theorem c1_counterexample :
    ¬ ∀ t' ∈ (procesarDoc dBad).tables,
        (t'.edgeDescs.length = 6 ∧
          ∀ e ∈ edgeTags, crearBorde 8 "000000" e ∈ t'.edgeDescs) := by
  decide

/-- C1 (amended): for every input document whose tables carry at most one
borders sub-block with at most one descriptor per named edge (every
schema-valid document), each processed table's property block contains
exactly the six fresh edge descriptors — one per named edge, style single,
width 8 eighths of a point, spacing 0, color 000000 — any prior descriptor
for those edges having been replaced, not accumulated. -/
theorem c1_bordersExactlySix (d : Document)
    (h : ∀ t ∈ d.tables, cleanTblPr t.tblPr = true) :
    ∀ t' ∈ (procesarDoc d).tables, t'.edgeDescs = freshSeis := by
  intro t' ht'
  rw [tables_procesarDoc] at ht'
  obtain ⟨t, ht, rfl⟩ := List.mem_map.mp ht'
  exact edgeDescs_procesarTabla t (h t ht)

/-- Witness for C1 (amended) at the concrete document `dExample`. -/
theorem c1_bordersExactlySix_witness :
    (procesarTabla tExample).edgeDescs = freshSeis :=
  c1_bordersExactlySix dExample (by decide) (procesarTabla tExample) (by decide)

/-- The rows of a processed table are its rows after flag removal. -/
theorem rows_procesarTabla (t : Table) :
    (procesarTabla t).rows = t.rows.map quitarTblHeader := rfl

/-- C2: after processing, no row of any table carries a header-repeat flag,
whatever the input flags were; and a row with no property block passes
through the per-row removal untouched. -/
theorem c2_noHeaderFlags (d : Document) :
    (∀ t' ∈ (procesarDoc d).tables, ∀ r ∈ t'.rows, rowHasFlag r = false) ∧
    (∀ t ∈ d.tables, ∀ r ∈ t.rows, r.trPr = none → quitarTblHeader r = r) := by
  constructor
  · intro t' ht' r hr
    rw [tables_procesarDoc] at ht'
    obtain ⟨t, ht, rfl⟩ := List.mem_map.mp ht'
    rw [rows_procesarTabla] at hr
    obtain ⟨r0, _, rfl⟩ := List.mem_map.mp hr
    exact rowHasFlag_quitarTblHeader r0
  · intro t _ r _ hr
    exact quitarTblHeader_of_no_trPr r hr

/-- Witness for C2 at the concrete document `dExample`. -/
theorem c2_noHeaderFlags_witness :
    rowHasFlag (quitarTblHeader rowFlagged) = false ∧
    quitarTblHeader rowBare = rowBare :=
  ⟨(c2_noHeaderFlags dExample).1 (procesarTabla tExample) (by decide)
      (quitarTblHeader rowFlagged) (by decide),
    (c2_noHeaderFlags dExample).2 tExample (by decide) rowBare (by decide) rfl⟩

/-- C3: on a byte buffer the library parses successfully, `procesar_docx`
returns the serialization of the processed document as a fresh stream at
position 0; with zero tables the processed document is structurally
identical to the parsed input. -/
theorem c3_procesarDocx (lib : DocxLib) (buf : ByteStream) (d : Document)
    (h : lib.load buf.bytes = Except.ok d) :
    procesar_docx lib buf = Except.ok ⟨lib.save (procesarDoc d), 0⟩ ∧
    (d.tables = [] → procesarDoc d = d) := by
  constructor
  · simp [procesar_docx, h]
  · exact procesarDoc_of_no_tables d

/-- Witness for C3 at a concrete stream and library stub. -/
theorem c3_procesarDocx_witness :
    procesar_docx libEx ⟨[7], 3⟩ = Except.ok ⟨libEx.save (procesarDoc dNoTables), 0⟩ ∧
    (dNoTables.tables = [] → procesarDoc dNoTables = dNoTables) :=
  c3_procesarDocx libEx ⟨[7], 3⟩ dNoTables rfl

/-- C4, as stated, is false: on `dBad` (a table whose borders block lists
`top` twice) running the transform twice is not semantically equal to
running it once — the stale red `top` descriptor survives one run but not
two. -/
theorem c4_counterexample :
    ¬ bordersFlagsEq (procesarDoc (procesarDoc dBad)) (procesarDoc dBad) = true := by
  decide

/-- Blockwise idempotence over a body of clean tables. -/
theorem map_procesarBlock_idem (l : List Block)
    (h : ∀ t, Block.table t ∈ l → firstBordersClean t.tblPr = true) :
    (l.map procesarBlock).map procesarBlock = l.map procesarBlock := by
  induction l with
  | nil => rfl
  | cons b rest ih =>
      simp only [List.map_cons]
      refine congrArg₂ List.cons ?_ (ih fun t ht => h t (List.mem_cons_of_mem b ht))
      exact procesarBlock_idem b fun t hb => h t (hb ▸ List.mem_cons_self b rest)

/-- C4 (amended): for every input document whose tables' first borders
sub-block holds at most one descriptor per named edge (every schema-valid
document), applying the transform twice yields literally the same document
as applying it once — hence equal border-descriptor sets and header-repeat
flags. -/
theorem c4_idempotent (d : Document)
    (h : ∀ t ∈ d.tables, firstBordersClean t.tblPr = true) :
    procesarDoc (procesarDoc d) = procesarDoc d ∧
    bordersFlagsEq (procesarDoc (procesarDoc d)) (procesarDoc d) = true := by
  have hmain : procesarDoc (procesarDoc d) = procesarDoc d := by
    cases d with
    | mk body =>
        exact congrArg Document.mk
          (map_procesarBlock_idem body
            (fun t ht => h t (mem_tables_of_mem_body ⟨body⟩ t ht)))
  refine ⟨hmain, ?_⟩
  rw [hmain]
  exact bordersFlagsEq_refl (procesarDoc d)

/-- Witness for C4 (amended) at the concrete document `dExample`. -/
theorem c4_idempotent_witness :
    procesarDoc (procesarDoc dExample) = procesarDoc dExample ∧
    bordersFlagsEq (procesarDoc (procesarDoc dExample)) (procesarDoc dExample) = true :=
  c4_idempotent dExample (by decide)

/-- C5: when the chosen input bytes fail to parse, the parse error
propagates out of `procesar_docx` and the handler answers `500` with the
exception's message in the JSON `error` field. -/
theorem c5_exception500 (lib : DocxLib) (req : HttpRequest) (bs : List Nat) (m : String)
    (h1 : inputBytes req = some bs) (h2 : lib.load bs = Except.error m) :
    process lib req = ⟨500, .jsonError m⟩ ∧
    procesar_docx lib ⟨bs, 0⟩ = Except.error m := by
  have hp : procesar_docx lib ⟨bs, 0⟩ = Except.error m := by
    simp [procesar_docx, h2]
  refine ⟨?_, hp⟩
  simp [process, h1, processDocxRequest, hp]

/-- Witness for C5 at a concrete failing library stub. -/
theorem c5_exception500_witness :
    process libErr reqRaw = ⟨500, .jsonError "File is not a zip file"⟩ ∧
    procesar_docx libErr ⟨[1, 2, 3], 0⟩ = Except.error "File is not a zip file" :=
  c5_exception500 libErr reqRaw [1, 2, 3] "File is not a zip file" rfl rfl

/-- C6: with no `file` field and an empty raw body the handler answers
`400` with a structured JSON error body. -/
theorem c6_missingInput400 (lib : DocxLib) (req : HttpRequest)
    (h1 : req.filePart = none) (h2 : req.rawBody = []) :
    process lib req = ⟨400, .jsonError "No se recibió archivo"⟩ := by
  simp [process, inputBytes, h1, h2]

/-- Witness for C6 at the concrete empty request. -/
theorem c6_missingInput400_witness :
    process libErr reqEmpty = ⟨400, .jsonError "No se recibió archivo"⟩ :=
  c6_missingInput400 libErr reqEmpty rfl rfl

/-- C7: the transform changes nothing outside borders sub-blocks and
header-repeat flags — scrubbing those away, the processed body equals the
input body (so cells, other table/row properties and non-table structure
are untouched), and every paragraph block survives in place unchanged. -/
theorem c7_framePreservation (d : Document) :
    (procesarDoc d).body.map scrubBlock = d.body.map scrubBlock ∧
    List.Forall₂ (fun b b' => ∀ p, b = Block.paragraph p → b' = Block.paragraph p)
      d.body (procesarDoc d).body := by
  constructor
  · show (d.body.map procesarBlock).map scrubBlock = _
    rw [List.map_map]
    exact List.map_congr_left fun b _ => scrubBlock_procesarBlock b
  · show List.Forall₂ _ d.body (d.body.map procesarBlock)
    induction d.body with
    | nil => exact List.Forall₂.nil
    | cons b rest ih =>
        refine List.Forall₂.cons ?_ ih
        intro p hp
        cases hp
        rfl

/-- Witness for C7 at the concrete document `dExample`. -/
theorem c7_framePreservation_witness :
    (procesarDoc dExample).body.map scrubBlock = dExample.body.map scrubBlock :=
  (c7_framePreservation dExample).1

/-- C8: every successful response carries status 200, the download name
built from the effective input filename with its last extension segment
stripped plus the fixed suffix, and the document MIME type. -/
theorem c8_downloadName (lib : DocxLib) (req : HttpRequest) (st : Nat) (b : List Nat)
    (n mt : String) (h : process lib req = ⟨st, .attachment b n mt⟩) :
    st = 200 ∧ n = stripLastExt (filenameIn req) ++ "_procesado.docx" ∧ mt = docxMime :=
  process_attachment_shape lib req st b n mt h

/-- Witness for C8 at a concrete successful request. -/
theorem c8_downloadName_witness :
    (200 : Nat) = 200 ∧
    "informe_procesado.docx" = stripLastExt (filenameIn reqFile) ++ "_procesado.docx" ∧
    docxMime = docxMime :=
  c8_downloadName libOk reqFile 200 [2] "informe_procesado.docx" docxMime (by decide)

/-- C9: a request whose `file` field holds zero bytes is never answered
`400`; the empty bytes reach the parser and a parse failure ends in the
generic `500` path. -/
theorem c9_emptyFileNot400 (lib : DocxLib) (req : HttpRequest) (f : FilePart)
    (h1 : req.filePart = some f) (h2 : f.content = []) :
    (process lib req).status ≠ 400 ∧
    (∀ m, lib.load [] = Except.error m → process lib req = ⟨500, .jsonError m⟩) := by
  have hproc : process lib req = processDocxRequest lib (filenameIn req) [] := by
    rw [process_filePart_not_400 lib req f h1, h2]
  constructor
  · rw [hproc]
    unfold processDocxRequest
    rcases hp : procesar_docx lib { bytes := [], pos := 0 } with e | salida
    · simp [hp]
    · simp [hp]
  · intro m hm
    rw [hproc]
    have hp : procesar_docx lib ⟨[], 0⟩ = Except.error m := by
      simp [procesar_docx, hm]
    simp [processDocxRequest, hp]

/-- Witness for C9 at a concrete zero-byte upload. -/
theorem c9_emptyFileNot400_witness :
    (process libErr reqEmptyFile).status ≠ 400 ∧
    (∀ m, libErr.load [] = Except.error m →
      process libErr reqEmptyFile = ⟨500, .jsonError m⟩) :=
  c9_emptyFileNot400 libErr reqEmptyFile ⟨"vacio.docx", []⟩ rfl rfl

/-- C10: with no usable input filename — raw-body request, or a `file`
field with an empty filename — a successful response suggests exactly
`input_procesado.docx`. -/
theorem c10_defaultName (lib : DocxLib) (req : HttpRequest) (st : Nat) (b : List Nat)
    (n mt : String)
    (h : req.filePart = none ∨ ∃ f, req.filePart = some f ∧ f.filename = "")
    (hp : process lib req = ⟨st, .attachment b n mt⟩) :
    n = "input_procesado.docx" := by
  have hname : filenameIn req = "input.docx" := by
    rcases h with h | ⟨f, hf, hfn⟩
    · simp [filenameIn, h]
    · simp [filenameIn, hf, hfn]
  have hshape := (process_attachment_shape lib req st b n mt hp).2.1
  rw [hname] at hshape
  exact hshape.trans (by decide)

/-- Witness for C10 at a concrete upload with an empty filename. -/
theorem c10_defaultName_witness : ("input_procesado.docx" : String) = "input_procesado.docx" :=
  c10_defaultName libOk reqNoName 200 [2] "input_procesado.docx" docxMime
    (Or.inr ⟨⟨"", [3]⟩, rfl, rfl⟩) (by decide)

end Main
